import Mathlib

/-!
Shallow embedding of the ragecoin ledger core (src/transaction.py, src/block.py,
src/blockchain.py, src/node.py) and verification of its specification.

Modelling conventions:
- SHA-256 block hashing is opaque to every property verified here, so the hash
  function is a parameter `H : BlockData → String` applied to the record of the
  five signed fields that src/block.py serialises canonically (json.dumps with
  sort_keys) before hashing.  All theorems are proved for every `H`.
- The ECDSA verification performed inside Transaction.is_valid (key decoding,
  hash recomputation, signature check, with every exception caught and turned
  into False by the except branch) is a parameter `sigOk : Transaction → Bool`.
- Python float amounts and timestamps are modelled as exact rationals `Rat`;
  none of the verified properties depends on rounding.
- Python dict payloads (tx.to_dict() snapshots stored inside blocks, JSON wire
  forms) are fixed-shape records TxRepr / BlockRepr / BlockchainRepr.
- The unbounded while-loop of Block.mine_block is given explicit fuel and
  returns Option: `some` is exactly a terminating run of the Python loop.
-/

namespace Ragecoin

/-- A transaction object (src/transaction.py): sender and recipient addresses
(hex public keys or the sentinel COINBASE), amount, optional hex signature. -/
structure Transaction where
  sender : String
  recipient : String
  amount : Rat
  signature : Option String
deriving DecidableEq, Repr

/-- Python truthiness of the optional signature string used by
Transaction.is_valid: None and the empty string are falsy. -/
def optFalsy : Option String → Bool
  | none => true
  | some s => s = ""

/-- Transaction.is_valid (src/transaction.py lines 36-50): COINBASE senders
always verify; a missing (falsy) signature fails; otherwise the outcome is the
ECDSA check `sigOk`, which already maps every decoding or cryptographic
exception to false (the except branch catches BadSignatureError and any other
exception). -/
def Transaction.is_valid (sigOk : Transaction → Bool) (t : Transaction) : Bool :=
  if t.sender = "COINBASE" then true
  else if optFalsy t.signature then false
  else sigOk t

/-- The dict form produced by Transaction.to_dict and consumed by
Transaction.from_dict; blocks store their transactions in this form. -/
structure TxRepr where
  sender : String
  recipient : String
  amount : Rat
  signature : Option String
deriving DecidableEq, Repr

/-- Transaction.to_dict (src/transaction.py lines 52-59). -/
def Transaction.to_dict (t : Transaction) : TxRepr :=
  ⟨t.sender, t.recipient, t.amount, t.signature⟩

/-- Transaction.from_dict (src/transaction.py lines 61-69). -/
def Transaction.from_dict (r : TxRepr) : Transaction :=
  ⟨r.sender, r.recipient, r.amount, r.signature⟩

/-- The five signed fields of a block, the exact payload that
Block.calculate_hash serialises canonically and hashes. -/
structure BlockData where
  index : Nat
  transactions : List TxRepr
  timestamp : Rat
  previous_hash : String
  nonce : Nat
deriving DecidableEq

/-- A block object (src/block.py): the five signed fields plus the cached
hash field. -/
structure Block where
  index : Nat
  transactions : List TxRepr
  timestamp : Rat
  previous_hash : String
  nonce : Nat
  hash : String
deriving DecidableEq, Repr

/-- The signed-field record of a block. -/
def Block.data (b : Block) : BlockData :=
  ⟨b.index, b.transactions, b.timestamp, b.previous_hash, b.nonce⟩

/-- Block.calculate_hash (src/block.py lines 19-28): hash of the canonical
serialisation of the five signed fields. -/
def Block.calculate_hash (H : BlockData → String) (b : Block) : String :=
  H b.data

/-- Block.__init__ (src/block.py lines 10-17): stores the five fields and
caches hash = calculate_hash(). -/
def Block.init (H : BlockData → String) (index : Nat) (transactions : List TxRepr)
    (timestamp : Rat) (previous_hash : String) (nonce : Nat) : Block :=
  { index := index, transactions := transactions, timestamp := timestamp,
    previous_hash := previous_hash, nonce := nonce,
    hash := H ⟨index, transactions, timestamp, previous_hash, nonce⟩ }

/-- The difficulty predicate: the hash string starts with difficulty-many '0'
characters.  This is both spellings used by the source, which agree in Python:
the mining loop's hash[:difficulty] == "0" * difficulty and the validation's
hash.startswith("0" * difficulty). -/
def meetsDifficulty (d : Nat) (h : String) : Bool :=
  h.data.take d = List.replicate d '0'

/-- The while-loop of Block.mine_block (src/block.py lines 30-36) with explicit
fuel: while the current cached hash misses the target, increment nonce and
recompute the hash; `some` is a terminating run of the Python loop. -/
def mineLoop (H : BlockData → String) (d : Nat) : Nat → Block → Option Block
  | 0, b => if meetsDifficulty d b.hash then some b else none
  | fuel + 1, b =>
    if meetsDifficulty d b.hash then some b
    else
      mineLoop H d fuel
        { b with nonce := b.nonce + 1,
                 hash := H ⟨b.index, b.transactions, b.timestamp, b.previous_hash, b.nonce + 1⟩ }

/-- Block.mine_block (src/block.py lines 30-36). -/
def Block.mine_block (H : BlockData → String) (fuel : Nat) (d : Nat) (b : Block) :
    Option Block :=
  mineLoop H d fuel b

/-- The dict form produced by Block.to_dict (src/block.py lines 38-47). -/
structure BlockRepr where
  index : Nat
  transactions : List TxRepr
  timestamp : Rat
  previous_hash : String
  nonce : Nat
  hash : String
deriving DecidableEq, Repr

/-- Block.to_dict (src/block.py lines 38-47). -/
def Block.to_dict (b : Block) : BlockRepr :=
  ⟨b.index, b.transactions, b.timestamp, b.previous_hash, b.nonce, b.hash⟩

/-- Block.from_dict (src/block.py lines 49-60): constructs the block through
__init__ (which recomputes a hash) and then overwrites the hash field with the
stored one — the stored hash is authoritative on load. -/
def Block.from_dict (H : BlockData → String) (r : BlockRepr) : Block :=
  { Block.init H r.index r.transactions r.timestamp r.previous_hash r.nonce with
    hash := r.hash }

/-- The ledger (src/blockchain.py): chain of blocks, difficulty, pending
transaction pool, mining reward. -/
structure Blockchain where
  chain : List Block
  difficulty : Nat
  pending_transactions : List Transaction
  mining_reward : Rat
deriving DecidableEq, Repr

/-- One iteration of the balance loop of Blockchain.get_balance over a stored
transaction dict: debit when the sender matches, credit when the recipient
matches. -/
def applyTxRepr (address : String) (balance : Rat) (t : TxRepr) : Rat :=
  let balance := if t.sender = address then balance - t.amount else balance
  if t.recipient = address then balance + t.amount else balance

/-- One iteration of the balance loop of Blockchain.get_balance over a pending
Transaction object. -/
def applyTx (address : String) (balance : Rat) (t : Transaction) : Rat :=
  let balance := if t.sender = address then balance - t.amount else balance
  if t.recipient = address then balance + t.amount else balance

/-- Blockchain.get_balance (src/blockchain.py lines 68-86): replay every
confirmed block's transactions in chain order, then every pending transaction
in pool order, starting from 0. -/
def Blockchain.get_balance (bc : Blockchain) (address : String) : Rat :=
  let confirmed :=
    bc.chain.foldl (fun acc b => b.transactions.foldl (applyTxRepr address) acc) 0
  bc.pending_transactions.foldl (applyTx address) confirmed

/-- Blockchain.add_transaction (src/blockchain.py lines 49-66): returns the
updated ledger together with the boolean result.  Rejects an empty (falsy)
sender or recipient, an invalid signature, and — for non-COINBASE senders — a
derived balance below the amount; on success appends to the pending pool. -/
def Blockchain.add_transaction (sigOk : Transaction → Bool) (bc : Blockchain)
    (t : Transaction) : Blockchain × Bool :=
  if t.sender = "" ∨ t.recipient = "" then (bc, false)
  else if Transaction.is_valid sigOk t = false then (bc, false)
  else if t.sender ≠ "COINBASE" ∧ bc.get_balance t.sender < t.amount then (bc, false)
  else ({ bc with pending_transactions := bc.pending_transactions ++ [t] }, true)

/-- Blockchain.mine_pending_transactions (src/blockchain.py lines 28-47):
inserts the COINBASE reward transaction at the front of the pending pool,
builds a block at index len(chain) over the dict snapshots of the pool with
previous_hash = chain[-1].hash, mines it, appends it and clears the pool.
The outer Option is `none` when the mining loop's fuel runs out or the chain is
empty (chain[-1] would raise); the `Option Block` inside the result is the
Python return value of the method, which is annotated -> None and has no
return statement, hence always `none`. -/
def Blockchain.mine_pending_transactions (H : BlockData → String) (fuel : Nat)
    (bc : Blockchain) (mining_reward_address : String) (ts : Rat) :
    Option (Blockchain × Option Block) :=
  let reward_tx : Transaction := ⟨"COINBASE", mining_reward_address, bc.mining_reward, none⟩
  let pending := reward_tx :: bc.pending_transactions
  match bc.chain.getLast? with
  | none => none
  | some last =>
    let block := Block.init H bc.chain.length (pending.map Transaction.to_dict) ts last.hash 0
    match Block.mine_block H fuel bc.difficulty block with
    | none => none
    | some mined =>
      some ({ bc with chain := bc.chain ++ [mined], pending_transactions := [] }, none)

/-- The per-block body of the validation loop of Blockchain.is_chain_valid
(src/blockchain.py lines 88-116): cached hash matches the recomputation, link
to the previous block holds, difficulty predicate holds, and every stored
transaction dict verifies after reconstruction via Transaction.from_dict. -/
def blockOk (H : BlockData → String) (sigOk : Transaction → Bool) (d : Nat)
    (previous current : Block) : Bool :=
  (current.hash == Block.calculate_hash H current) &&
  (current.previous_hash == previous.hash) &&
  meetsDifficulty d current.hash &&
  current.transactions.all (fun txd => Transaction.is_valid sigOk (Transaction.from_dict txd))

/-- The validation loop from index 1 upward, carrying the previous block. -/
def chainValidFrom (H : BlockData → String) (sigOk : Transaction → Bool) (d : Nat) :
    Block → List Block → Bool
  | _, [] => true
  | prev, cur :: rest => blockOk H sigOk d prev cur && chainValidFrom H sigOk d cur rest

/-- Blockchain.is_chain_valid (src/blockchain.py lines 88-116): runs the
validation loop over indices 1..len-1; the genesis block itself is only read
through its hash field. -/
def Blockchain.is_chain_valid (H : BlockData → String) (sigOk : Transaction → Bool)
    (bc : Blockchain) : Bool :=
  match bc.chain with
  | [] => true
  | g :: rest => chainValidFrom H sigOk bc.difficulty g rest

/-- The JSON form produced by Blockchain.to_dict (src/blockchain.py lines 118-125). -/
structure BlockchainRepr where
  chain : List BlockRepr
  difficulty : Nat
  mining_reward : Rat
  pending_transactions : List TxRepr
deriving DecidableEq, Repr

/-- Blockchain.to_dict (src/blockchain.py lines 118-125). -/
def Blockchain.to_dict (bc : Blockchain) : BlockchainRepr :=
  ⟨bc.chain.map Block.to_dict, bc.difficulty, bc.mining_reward,
   bc.pending_transactions.map Transaction.to_dict⟩

/-- Blockchain.load_from_file on the parsed JSON data (src/blockchain.py lines
132-143): Blockchain(difficulty, mining_reward) is constructed — its freshly
mined genesis block is immediately discarded by the wholesale chain assignment,
so the constructor's mining is not modelled — and chain and
pending_transactions are overwritten from the data, block hashes taken as
stored, never recomputed. -/
def Blockchain.load_from_file (H : BlockData → String) (data : BlockchainRepr) :
    Blockchain :=
  { chain := data.chain.map (Block.from_dict H),
    difficulty := data.difficulty,
    pending_transactions := data.pending_transactions.map Transaction.from_dict,
    mining_reward := data.mining_reward }

/-- The node state relevant to consensus (src/node.py): its local ledger. -/
structure Node where
  blockchain : Blockchain
deriving DecidableEq, Repr

/-- is_chain_valid run on the scratch ledger of Node.resolve_conflicts:
temp_blockchain = Blockchain() is built with the default difficulty 4 and
mining reward 50, and its chain (a freshly mined genesis block, discarded) is
wholesale replaced by the candidate before validation. -/
def scratchValidate (H : BlockData → String) (sigOk : Transaction → Bool)
    (candidate : List Block) : Bool :=
  Blockchain.is_chain_valid H sigOk ⟨candidate, 4, [], 50⟩

/-- The peer loop of Node.resolve_conflicts (src/node.py lines 109-136) over
the per-peer fetch results (`none` is an unreachable peer or non-200 response,
skipped), carrying max_length and new_chain: a candidate strictly longer than
max_length is parsed and validated on a scratch ledger, and on success becomes
the new best. -/
def resolveLoop (H : BlockData → String) (sigOk : Transaction → Bool) :
    List (Option (List BlockRepr)) → Nat → Option (List Block) → Nat × Option (List Block)
  | [], max_length, new_chain => (max_length, new_chain)
  | none :: rest, max_length, new_chain => resolveLoop H sigOk rest max_length new_chain
  | some data :: rest, max_length, new_chain =>
    if data.length > max_length then
      if scratchValidate H sigOk (data.map (Block.from_dict H)) then
        resolveLoop H sigOk rest data.length (some (data.map (Block.from_dict H)))
      else resolveLoop H sigOk rest max_length new_chain
    else resolveLoop H sigOk rest max_length new_chain

/-- Node.resolve_conflicts (src/node.py lines 109-136): run the peer loop with
max_length initialised to the local chain length and new_chain to None; if a
new chain was found, assign it wholesale and return true, else return false. -/
def Node.resolve_conflicts (H : BlockData → String) (sigOk : Transaction → Bool)
    (node : Node) (responses : List (Option (List BlockRepr))) : Node × Bool :=
  match (resolveLoop H sigOk responses node.blockchain.chain.length none).2 with
  | some c => ({ blockchain := { node.blockchain with chain := c } }, true)
  | none => (node, false)

/-! ## Helper lemmas -/

lemma blockOk_iff (H : BlockData → String) (sigOk : Transaction → Bool) (d : Nat)
    (prev cur : Block) :
    blockOk H sigOk d prev cur = true ↔
      cur.hash = Block.calculate_hash H cur ∧
      cur.previous_hash = prev.hash ∧
      meetsDifficulty d cur.hash = true ∧
      ∀ txd ∈ cur.transactions, Transaction.is_valid sigOk (Transaction.from_dict txd) = true := by
  simp [blockOk, List.all_eq_true, and_assoc]

lemma chainValidFrom_iff (H : BlockData → String) (sigOk : Transaction → Bool) (d : Nat) :
    ∀ (l : List Block) (prev : Block),
      chainValidFrom H sigOk d prev l = true ↔
        ∀ i (h : i < l.length),
          blockOk H sigOk d ((prev :: l).get ⟨i, Nat.lt_succ_of_lt h⟩) (l.get ⟨i, h⟩) = true
  | [], prev => by simp [chainValidFrom]
  | cur :: rest, prev => by
    rw [show chainValidFrom H sigOk d prev (cur :: rest) =
          (blockOk H sigOk d prev cur && chainValidFrom H sigOk d cur rest) from rfl,
        Bool.and_eq_true, chainValidFrom_iff H sigOk d rest cur]
    constructor
    · rintro ⟨h0, hrest⟩ i hi
      cases i with
      | zero => simpa using h0
      | succ j => simpa using hrest j (by simpa using hi)
    · intro h
      refine ⟨by simpa using h 0 (by simp), fun j hj => ?_⟩
      simpa using h (j + 1) (by simpa using hj)

/-! ## C1: characterisation of is_chain_valid -/

/-- C1: is_chain_valid returns true if and only if, for every block index
i ≥ 1 (written i+1 below), the block's cached hash equals the recomputation
over its five signed fields, its previous_hash equals the previous block's
hash, its hash meets the difficulty predicate, and every stored transaction
verifies; the loop examines indices in increasing order, short-circuits at the
first failure, and reports only this boolean. -/
theorem is_chain_valid_spec (H : BlockData → String) (sigOk : Transaction → Bool)
    (bc : Blockchain) :
    bc.is_chain_valid H sigOk = true ↔
      ∀ i (h : i + 1 < bc.chain.length),
        (bc.chain.get ⟨i + 1, h⟩).hash = Block.calculate_hash H (bc.chain.get ⟨i + 1, h⟩) ∧
        (bc.chain.get ⟨i + 1, h⟩).previous_hash =
          (bc.chain.get ⟨i, Nat.lt_of_succ_lt h⟩).hash ∧
        meetsDifficulty bc.difficulty (bc.chain.get ⟨i + 1, h⟩).hash = true ∧
        ∀ txd ∈ (bc.chain.get ⟨i + 1, h⟩).transactions,
          Transaction.is_valid sigOk (Transaction.from_dict txd) = true := by
  obtain ⟨chain, d, pend, mr⟩ := bc
  cases chain with
  | nil => simp [Blockchain.is_chain_valid]
  | cons g rest =>
    show chainValidFrom H sigOk d g rest = true ↔ _
    rw [chainValidFrom_iff]
    constructor
    · intro h i hi
      have hi2 : i < rest.length := by simpa using hi
      have hb := (blockOk_iff H sigOk d _ _).mp (h i hi2)
      simpa using hb
    · intro h i hi
      rw [blockOk_iff]
      have hb := h i (by simpa using hi)
      simpa using hb

/-! ## C5: mining postcondition -/

lemma mineLoop_sound (H : BlockData → String) (d : Nat) :
    ∀ (fuel : Nat) (b b2 : Block), b.hash = Block.calculate_hash H b →
      mineLoop H d fuel b = some b2 →
      b2.hash = Block.calculate_hash H b2 ∧
      meetsDifficulty d b2.hash = true ∧
      b.nonce ≤ b2.nonce ∧
      (∀ n, b.nonce ≤ n → n < b2.nonce →
        meetsDifficulty d (H ⟨b.index, b.transactions, b.timestamp, b.previous_hash, n⟩) = false) ∧
      b2.index = b.index ∧ b2.transactions = b.transactions ∧
      b2.timestamp = b.timestamp ∧ b2.previous_hash = b.previous_hash
  | 0, b, b2, hb, h => by
    rw [mineLoop] at h
    split at h
    · cases h
      exact ⟨hb, by assumption, le_refl _, fun n h1 h2 => absurd h2 (by omega),
        rfl, rfl, rfl, rfl⟩
    · exact absurd h (by simp)
  | fuel + 1, b, b2, hb, h => by
    rw [mineLoop] at h
    split at h
    · cases h
      exact ⟨hb, by assumption, le_refl _, fun n h1 h2 => absurd h2 (by omega),
        rfl, rfl, rfl, rfl⟩
    · rename_i hmiss
      obtain ⟨p1, p2, p3, p4, p5, p6, p7, p8⟩ := mineLoop_sound H d fuel _ b2 rfl h
      refine ⟨p1, p2, Nat.le_trans (Nat.le_succ _) (by simpa using p3), ?_,
        by simpa using p5, by simpa using p6, by simpa using p7, by simpa using p8⟩
      intro n h1 h2
      rcases Nat.eq_or_lt_of_le h1 with he | hl
      · have hbn : (⟨b.index, b.transactions, b.timestamp, b.previous_hash, n⟩ : BlockData)
            = b.data := by simp [Block.data, ← he]
        rw [hbn]
        have : meetsDifficulty d b.hash ≠ true := hmiss
        rw [hb] at this
        simpa [Block.calculate_hash] using Bool.not_eq_true _ |>.mp this
      · exact p4 n (by simpa using hl) (by simpa using h2)

/-- C5: for a block whose cached hash matches the recomputation of its current
fields (the state right after construction), a terminating run of mine_block
leaves every field except nonce and hash unchanged, re-establishes
hash = calculate_hash(), makes the hash meet the difficulty predicate, and the
final nonce is the least value greater than or equal to the pre-mining nonce
whose induced hash meets the predicate. -/
theorem mine_block_spec (H : BlockData → String) (fuel d : Nat) (b b2 : Block)
    (hb : b.hash = Block.calculate_hash H b)
    (h : Block.mine_block H fuel d b = some b2) :
    b2.hash = Block.calculate_hash H b2 ∧
    b2.hash = H ⟨b.index, b.transactions, b.timestamp, b.previous_hash, b2.nonce⟩ ∧
    meetsDifficulty d b2.hash = true ∧
    b.nonce ≤ b2.nonce ∧
    (∀ n, b.nonce ≤ n → n < b2.nonce →
      meetsDifficulty d (H ⟨b.index, b.transactions, b.timestamp, b.previous_hash, n⟩) = false) ∧
    b2.index = b.index ∧ b2.transactions = b.transactions ∧
    b2.timestamp = b.timestamp ∧ b2.previous_hash = b.previous_hash := by
  obtain ⟨p1, p2, p3, p4, p5, p6, p7, p8⟩ := mineLoop_sound H d fuel b b2 hb h
  refine ⟨p1, ?_, p2, p3, p4, p5, p6, p7, p8⟩
  rw [p1, Block.calculate_hash]
  congr 1
  simp [Block.data, p5, p6, p7, p8]

/-- Hash oracle for the mining witness: only nonce 2 yields a winning hash. -/
def mineH : BlockData → String := fun bd => if bd.nonce = 2 then "0" else "x"

/-- Pre-mining block for the witness, cached hash consistent with mineH. -/
def mineB0 : Block := ⟨0, [], 0, "p", 0, "x"⟩

/-- The mined block the witness run produces. -/
def mineB2 : Block := ⟨0, [], 0, "p", 2, "0"⟩

theorem mine_block_spec_witness :
    (mineB0.hash = Block.calculate_hash mineH mineB0) ∧
    (Block.mine_block mineH 3 1 mineB0 = some mineB2) ∧
    (mineB2.hash = Block.calculate_hash mineH mineB2 ∧
     mineB2.hash = mineH ⟨mineB0.index, mineB0.transactions, mineB0.timestamp,
       mineB0.previous_hash, mineB2.nonce⟩ ∧
     meetsDifficulty 1 mineB2.hash = true ∧
     mineB0.nonce ≤ mineB2.nonce ∧
     (∀ n, mineB0.nonce ≤ n → n < mineB2.nonce →
       meetsDifficulty 1 (mineH ⟨mineB0.index, mineB0.transactions, mineB0.timestamp,
         mineB0.previous_hash, n⟩) = false) ∧
     mineB2.index = mineB0.index ∧ mineB2.transactions = mineB0.transactions ∧
     mineB2.timestamp = mineB0.timestamp ∧ mineB2.previous_hash = mineB0.previous_hash) :=
  ⟨rfl, by decide, mine_block_spec mineH 3 1 mineB0 mineB2 rfl (by decide)⟩

/-! ## C4: mine_pending_transactions -/

/-- C4 (amended): a terminating run of mine_pending_transactions inserts the
COINBASE reward transaction paying mining_reward to the miner address at the
front of the pending list so that its snapshot is the first transaction of the
new block, builds that block at index len(chain) with previous_hash equal to
the last block's hash, mines it at the ledger's difficulty, appends it to the
chain and clears the pending pool entirely — and returns None (the method is
annotated -> None and has no return statement), not the newly mined Block,
which is reachable only as the new last chain element. -/
theorem mine_pending_transactions_spec (H : BlockData → String) (fuel : Nat)
    (bc : Blockchain) (addr : String) (ts : Rat) (bc2 : Blockchain) (ret : Option Block)
    (h : bc.mine_pending_transactions H fuel addr ts = some (bc2, ret)) :
    ret = none ∧
    ∃ last mined, bc.chain.getLast? = some last ∧
      bc2 = { bc with chain := bc.chain ++ [mined], pending_transactions := [] } ∧
      mined.index = bc.chain.length ∧
      mined.previous_hash = last.hash ∧
      mined.timestamp = ts ∧
      mined.transactions =
        (Transaction.mk "COINBASE" addr bc.mining_reward none :: bc.pending_transactions).map
          Transaction.to_dict ∧
      mined.transactions.head? =
        some (Transaction.to_dict ⟨"COINBASE", addr, bc.mining_reward, none⟩) ∧
      meetsDifficulty bc.difficulty mined.hash = true ∧
      mined.hash = Block.calculate_hash H mined := by
  rw [Blockchain.mine_pending_transactions] at h
  cases hlast : bc.chain.getLast? with
  | none => rw [hlast] at h; exact absurd h (by simp)
  | some last =>
    rw [hlast] at h
    simp only [] at h
    cases hmine : Block.mine_block H fuel bc.difficulty
        (Block.init H bc.chain.length
          ((Transaction.mk "COINBASE" addr bc.mining_reward none ::
            bc.pending_transactions).map Transaction.to_dict) ts last.hash 0) with
    | none => rw [hmine] at h; exact absurd h (by simp)
    | some mined =>
      rw [hmine] at h
      simp only [Option.some.injEq, Prod.mk.injEq] at h
      obtain ⟨hbc2, hret⟩ := h
      obtain ⟨p1, p2, p3, p4, p5, p6, p7, p8⟩ :=
        mineLoop_sound H bc.difficulty fuel _ mined rfl hmine
      refine ⟨hret.symm, last, mined, rfl, hbc2.symm, by simpa [Block.init] using p5,
        by simpa [Block.init] using p8, by simpa [Block.init] using p7,
        by simpa [Block.init] using p6, ?_, p2, p1⟩
      have htx : mined.transactions =
          (Transaction.mk "COINBASE" addr bc.mining_reward none ::
            bc.pending_transactions).map Transaction.to_dict := by
        simpa [Block.init] using p6
      rw [htx]
      simp

/-- Hash oracle for concrete runs: every payload hashes to the empty string,
which meets difficulty 0. -/
def constH : BlockData → String := fun _ => ""

/-- Concrete genesis block consistent with constH. -/
def g0 : Block := ⟨0, [], 0, "0", 0, ""⟩

/-- Concrete difficulty-0 ledger holding only g0. -/
def bc0 : Blockchain := ⟨[g0], 0, [], 50⟩

/-- The block mined by the concrete run of mine_pending_transactions on bc0. -/
def nb0 : Block := ⟨1, [⟨"COINBASE", "m", 50, none⟩], 0, "", 0, ""⟩

/-- The ledger after that run. -/
def bc0mined : Blockchain := ⟨[g0, nb0], 0, [], 50⟩

/-- C4 counterexample: on the concrete ledger bc0 the call completes and
appends the newly mined block (the chain grows from one block to two), yet the
method's return value is None — not the newly mined Block as the claim
states. -/
theorem mine_pending_returns_none_cex :
    (Blockchain.mine_pending_transactions constH 1 bc0 "m" 0).map Prod.snd = some none ∧
    (Blockchain.mine_pending_transactions constH 1 bc0 "m" 0).map
      (fun p => p.1.chain.length) = some 2 :=
  ⟨rfl, rfl⟩

theorem mine_pending_transactions_spec_witness :
    (Blockchain.mine_pending_transactions constH 1 bc0 "m" 0 = some (bc0mined, none)) ∧
    ((none : Option Block) = none ∧
     ∃ last mined, bc0.chain.getLast? = some last ∧
       bc0mined = { bc0 with chain := bc0.chain ++ [mined], pending_transactions := [] } ∧
       mined.index = bc0.chain.length ∧
       mined.previous_hash = last.hash ∧
       mined.timestamp = 0 ∧
       mined.transactions =
         (Transaction.mk "COINBASE" "m" bc0.mining_reward none ::
           bc0.pending_transactions).map Transaction.to_dict ∧
       mined.transactions.head? =
         some (Transaction.to_dict ⟨"COINBASE", "m", bc0.mining_reward, none⟩) ∧
       meetsDifficulty bc0.difficulty mined.hash = true ∧
       mined.hash = Block.calculate_hash constH mined) :=
  ⟨rfl, mine_pending_transactions_spec constH 1 bc0 "m" 0 bc0mined none rfl⟩

/-! ## C3, C6, C9: transaction admission -/

lemma get_balance_append_pending (bc : Blockchain) (t : Transaction) (address : String) :
    Blockchain.get_balance
      { bc with pending_transactions := bc.pending_transactions ++ [t] } address =
      applyTx address (bc.get_balance address) t := by
  simp [Blockchain.get_balance, List.foldl_append]

lemma add_transaction_cases (sigOk : Transaction → Bool) (bc : Blockchain) (t : Transaction) :
    (bc.add_transaction sigOk t =
        ({ bc with pending_transactions := bc.pending_transactions ++ [t] }, true) ∧
      ¬(t.sender = "" ∨ t.recipient = "" ∨ Transaction.is_valid sigOk t = false ∨
        (t.sender ≠ "COINBASE" ∧ bc.get_balance t.sender < t.amount))) ∨
    (bc.add_transaction sigOk t = (bc, false) ∧
      (t.sender = "" ∨ t.recipient = "" ∨ Transaction.is_valid sigOk t = false ∨
        (t.sender ≠ "COINBASE" ∧ bc.get_balance t.sender < t.amount))) := by
  by_cases h1 : t.sender = "" ∨ t.recipient = ""
  · exact Or.inr ⟨by rw [Blockchain.add_transaction, if_pos h1], by tauto⟩
  by_cases h2 : Transaction.is_valid sigOk t = false
  · exact Or.inr ⟨by rw [Blockchain.add_transaction, if_neg h1, if_pos h2], by tauto⟩
  by_cases h3 : t.sender ≠ "COINBASE" ∧ bc.get_balance t.sender < t.amount
  · exact Or.inr
      ⟨by rw [Blockchain.add_transaction, if_neg h1, if_neg h2, if_pos h3], by tauto⟩
  · exact Or.inl
      ⟨by rw [Blockchain.add_transaction, if_neg h1, if_neg h2, if_neg h3], by tauto⟩

/-- C3: add_transaction rejects, leaving the pool untouched, exactly when the
sender or recipient is empty, the signature check fails, or the sender is not
COINBASE and its derived balance (confirmed blocks plus the current pending
pool) is below the amount; on success the transaction is appended at the end
of the pool.  In particular an admitted pending debit counts against the next
admission: after a first transaction spending more than half the sender's
balance to someone else is admitted, a second one spending more than half is
rejected. -/
theorem add_transaction_spec (sigOk : Transaction → Bool) (bc : Blockchain)
    (t : Transaction) :
    ((bc.add_transaction sigOk t).2 = false ↔
       t.sender = "" ∨ t.recipient = "" ∨ Transaction.is_valid sigOk t = false ∨
         (t.sender ≠ "COINBASE" ∧ bc.get_balance t.sender < t.amount)) ∧
    ((bc.add_transaction sigOk t).2 = false → (bc.add_transaction sigOk t).1 = bc) ∧
    ((bc.add_transaction sigOk t).2 = true →
      (bc.add_transaction sigOk t).1 =
        { bc with pending_transactions := bc.pending_transactions ++ [t] }) ∧
    (∀ t2 : Transaction, t.sender ≠ "COINBASE" → t2.sender = t.sender →
      t.recipient ≠ t.sender →
      bc.get_balance t.sender / 2 < t.amount → bc.get_balance t.sender / 2 < t2.amount →
      (bc.add_transaction sigOk t).2 = true →
      (((bc.add_transaction sigOk t).1).add_transaction sigOk t2).2 = false) := by
  have main := add_transaction_cases sigOk bc t
  refine ⟨?_, ?_, ?_, ?_⟩
  · rcases main with ⟨he, hn⟩ | ⟨he, hd⟩
    · rw [he]; simpa using hn
    · rw [he]; simpa using hd
  · rcases main with ⟨he, _⟩ | ⟨he, _⟩ <;> rw [he] <;> simp
  · rcases main with ⟨he, _⟩ | ⟨he, _⟩ <;> rw [he] <;> simp
  · intro t2 hnc hs2 hrec hamt1 hamt2 hsucc
    rcases main with ⟨he, _⟩ | ⟨he, _⟩
    · rw [he]
      rcases add_transaction_cases sigOk
          { bc with pending_transactions := bc.pending_transactions ++ [t] } t2 with
        ⟨_, hn2⟩ | ⟨he2, _⟩
      · exfalso
        apply hn2
        refine Or.inr (Or.inr (Or.inr ⟨by rw [hs2]; exact hnc, ?_⟩))
        rw [hs2, get_balance_append_pending, applyTx]
        simp only [eq_self_iff_true, if_true, if_neg hrec]
        linarith
      · rw [he2]
    · rw [he] at hsucc
      simp at hsucc

/-- C6: COINBASE transactions always verify regardless of the signature field,
and are admitted by add_transaction for any non-empty recipient with no
balance check, whatever balance the chain derives for COINBASE; non-COINBASE
transactions fail verification when the signature is absent (falsy), and
otherwise the verdict is the total boolean ECDSA check, which maps every
decoding or cryptographic error to false instead of raising. -/
theorem coinbase_exemption (sigOk : Transaction → Bool) :
    (∀ t : Transaction, t.sender = "COINBASE" → Transaction.is_valid sigOk t = true) ∧
    (∀ (bc : Blockchain) (t : Transaction), t.sender = "COINBASE" → t.recipient ≠ "" →
      bc.add_transaction sigOk t =
        ({ bc with pending_transactions := bc.pending_transactions ++ [t] }, true)) ∧
    (∀ t : Transaction, t.sender ≠ "COINBASE" → optFalsy t.signature = true →
      Transaction.is_valid sigOk t = false) ∧
    (∀ t : Transaction, t.sender ≠ "COINBASE" → optFalsy t.signature = false →
      Transaction.is_valid sigOk t = sigOk t) := by
  refine ⟨?_, ?_, ?_, ?_⟩
  · intro t h; rw [Transaction.is_valid, if_pos h]
  · intro bc t hs hr
    have h1 : ¬(t.sender = "" ∨ t.recipient = "") := by
      rintro (h | h)
      · rw [hs] at h; exact absurd h (by decide)
      · exact hr h
    have h2 : ¬(Transaction.is_valid sigOk t = false) := by
      rw [Transaction.is_valid, if_pos hs]; simp
    have h3 : ¬(t.sender ≠ "COINBASE" ∧ bc.get_balance t.sender < t.amount) := by
      rintro ⟨h, _⟩; exact h hs
    rw [Blockchain.add_transaction, if_neg h1, if_neg h2, if_neg h3]
  · intro t hs hsig
    rw [Transaction.is_valid, if_neg hs, if_pos hsig]
  · intro t hs hsig
    rw [Transaction.is_valid, if_neg hs, if_neg (by simp [hsig])]

/-- C9: admission imposes no lower bound on the amount: any transaction with
non-empty sender and recipient and a passing signature check whose sender's
derived balance is at least the amount is admitted — so a validly signed
negative-amount transaction is admitted from any sender with balance 0 — and
once counted by get_balance a negative-amount transaction raises the sender's
balance and lowers the recipient's balance by the absolute amount. -/
theorem add_transaction_no_lower_bound (sigOk : Transaction → Bool) :
    (∀ (bc : Blockchain) (t : Transaction),
      t.sender ≠ "" → t.recipient ≠ "" → Transaction.is_valid sigOk t = true →
      t.amount ≤ bc.get_balance t.sender →
      bc.add_transaction sigOk t =
        ({ bc with pending_transactions := bc.pending_transactions ++ [t] }, true)) ∧
    (∀ (bc : Blockchain) (t : Transaction), t.amount < 0 → t.recipient ≠ t.sender →
      Blockchain.get_balance
          { bc with pending_transactions := bc.pending_transactions ++ [t] } t.sender =
        bc.get_balance t.sender + |t.amount| ∧
      Blockchain.get_balance
          { bc with pending_transactions := bc.pending_transactions ++ [t] } t.recipient =
        bc.get_balance t.recipient - |t.amount|) := by
  constructor
  · intro bc t hs hr hv hbal
    have h1 : ¬(t.sender = "" ∨ t.recipient = "") := by
      rintro (h | h); exacts [hs h, hr h]
    have h2 : ¬(Transaction.is_valid sigOk t = false) := by simp [hv]
    have h3 : ¬(t.sender ≠ "COINBASE" ∧ bc.get_balance t.sender < t.amount) := by
      rintro ⟨_, h⟩; exact absurd hbal (not_le.mpr h)
    rw [Blockchain.add_transaction, if_neg h1, if_neg h2, if_neg h3]
  · intro bc t hneg hrec
    have habs : |t.amount| = -t.amount := abs_of_neg hneg
    constructor
    · rw [get_balance_append_pending, applyTx]
      simp only [eq_self_iff_true, if_true, if_neg hrec]
      rw [habs]; ring
    · rw [get_balance_append_pending, applyTx]
      have hsr : t.sender ≠ t.recipient := fun h => hrec h.symm
      simp only [if_neg hsr, eq_self_iff_true, if_true]
      rw [habs]; ring

/-! ## C2, C8: consensus resolution -/

lemma resolveLoop_best_some (H : BlockData → String) (sigOk : Transaction → Bool) :
    ∀ (rs : List (Option (List BlockRepr))) (m : Nat) (c : List Block),
      ∃ c2, (resolveLoop H sigOk rs m (some c)).2 = some c2
  | [], _, c => ⟨c, rfl⟩
  | none :: rest, m, c => resolveLoop_best_some H sigOk rest m c
  | some data :: rest, m, c => by
    rw [resolveLoop]
    split
    · split
      · exact resolveLoop_best_some H sigOk rest _ _
      · exact resolveLoop_best_some H sigOk rest m c
    · exact resolveLoop_best_some H sigOk rest m c

lemma resolveLoop_le (H : BlockData → String) (sigOk : Transaction → Bool) :
    ∀ (rs : List (Option (List BlockRepr))) (m : Nat) (best : Option (List Block)),
      m ≤ (resolveLoop H sigOk rs m best).1
  | [], m, _ => le_refl m
  | none :: rest, m, best => resolveLoop_le H sigOk rest m best
  | some data :: rest, m, best => by
    rw [resolveLoop]
    split
    · split
      · rename_i hgt _
        exact le_trans (le_of_lt hgt) (resolveLoop_le H sigOk rest _ _)
      · exact resolveLoop_le H sigOk rest m best
    · exact resolveLoop_le H sigOk rest m best

lemma resolveLoop_bound (H : BlockData → String) (sigOk : Transaction → Bool) :
    ∀ (rs : List (Option (List BlockRepr))) (m : Nat) (best : Option (List Block))
      (d : List BlockRepr), some d ∈ rs →
      scratchValidate H sigOk (d.map (Block.from_dict H)) = true →
      d.length ≤ (resolveLoop H sigOk rs m best).1
  | [], _, _, _, hmem, _ => absurd hmem (by simp)
  | none :: rest, m, best, d, hmem, hv => by
    have hmem2 : some d ∈ rest := by simpa using hmem
    exact resolveLoop_bound H sigOk rest m best d hmem2 hv
  | some data :: rest, m, best, d, hmem, hv => by
    rcases List.mem_cons.mp hmem with hd | hmem2
    · have hdd : d = data := by simpa using hd
      subst hdd
      by_cases hgt : d.length > m
      · rw [resolveLoop, if_pos hgt, if_pos hv]
        exact resolveLoop_le H sigOk rest _ _
      · rw [resolveLoop, if_neg hgt]
        exact le_trans (by omega) (resolveLoop_le H sigOk rest m best)
    · by_cases hgt : data.length > m
      · by_cases hval : scratchValidate H sigOk (data.map (Block.from_dict H)) = true
        · rw [resolveLoop, if_pos hgt, if_pos hval]
          exact resolveLoop_bound H sigOk rest _ _ d hmem2 hv
        · rw [resolveLoop, if_pos hgt, if_neg hval]
          exact resolveLoop_bound H sigOk rest m best d hmem2 hv
      · rw [resolveLoop, if_neg hgt]
        exact resolveLoop_bound H sigOk rest m best d hmem2 hv

lemma resolveLoop_spec (H : BlockData → String) (sigOk : Transaction → Bool) :
    ∀ (rs : List (Option (List BlockRepr))) (m : Nat) (best : Option (List Block)),
      resolveLoop H sigOk rs m best = (m, best) ∨
      ∃ d, some d ∈ rs ∧ scratchValidate H sigOk (d.map (Block.from_dict H)) = true ∧
        m < d.length ∧
        resolveLoop H sigOk rs m best = (d.length, some (d.map (Block.from_dict H)))
  | [], m, best => Or.inl rfl
  | none :: rest, m, best => by
    rcases resolveLoop_spec H sigOk rest m best with h | ⟨d, hmem, hv, hlt, he⟩
    · exact Or.inl (by rw [resolveLoop]; exact h)
    · exact Or.inr ⟨d, by simp [hmem], hv, hlt, by rw [resolveLoop]; exact he⟩
  | some data :: rest, m, best => by
    by_cases hgt : data.length > m
    · by_cases hval : scratchValidate H sigOk (data.map (Block.from_dict H)) = true
      · rcases resolveLoop_spec H sigOk rest data.length
            (some (data.map (Block.from_dict H))) with h | ⟨d, hmem, hv, hlt, he⟩
        · refine Or.inr ⟨data, by simp, hval, hgt, ?_⟩
          rw [resolveLoop, if_pos hgt, if_pos hval]
          exact h
        · refine Or.inr ⟨d, by simp [hmem], hv, lt_trans hgt hlt, ?_⟩
          rw [resolveLoop, if_pos hgt, if_pos hval]
          exact he
      · rcases resolveLoop_spec H sigOk rest m best with h | ⟨d, hmem, hv, hlt, he⟩
        · exact Or.inl (by rw [resolveLoop, if_pos hgt, if_neg hval]; exact h)
        · exact Or.inr ⟨d, by simp [hmem], hv, hlt,
            by rw [resolveLoop, if_pos hgt, if_neg hval]; exact he⟩
    · rcases resolveLoop_spec H sigOk rest m best with h | ⟨d, hmem, hv, hlt, he⟩
      · exact Or.inl (by rw [resolveLoop, if_neg hgt]; exact h)
      · exact Or.inr ⟨d, by simp [hmem], hv, hlt,
          by rw [resolveLoop, if_neg hgt]; exact he⟩

lemma resolveLoop_reaches (H : BlockData → String) (sigOk : Transaction → Bool) :
    ∀ (rs : List (Option (List BlockRepr))) (m : Nat) (best : Option (List Block))
      (d : List BlockRepr), some d ∈ rs → m < d.length →
      scratchValidate H sigOk (d.map (Block.from_dict H)) = true →
      (resolveLoop H sigOk rs m best).2 ≠ none
  | [], _, _, _, hmem, _, _ => absurd hmem (by simp)
  | none :: rest, m, best, d, hmem, hlt, hv =>
    resolveLoop_reaches H sigOk rest m best d (by simpa using hmem) hlt hv
  | some data :: rest, m, best, d, hmem, hlt, hv => by
    by_cases hgt : data.length > m
    · by_cases hval : scratchValidate H sigOk (data.map (Block.from_dict H)) = true
      · rw [resolveLoop, if_pos hgt, if_pos hval]
        obtain ⟨c2, hc2⟩ := resolveLoop_best_some H sigOk rest data.length
          (data.map (Block.from_dict H))
        intro hcon
        rw [hc2] at hcon
        exact Option.noConfusion hcon
      · rcases List.mem_cons.mp hmem with hd | hmem2
        · have : d = data := by simpa using hd
          subst this
          exact absurd hv hval
        · rw [resolveLoop, if_pos hgt, if_neg hval]
          exact resolveLoop_reaches H sigOk rest m best d hmem2 hlt hv
    · rcases List.mem_cons.mp hmem with hd | hmem2
      · have : d = data := by simpa using hd
        subst this
        exact absurd hlt hgt
      · rw [resolveLoop, if_neg hgt]
        exact resolveLoop_reaches H sigOk rest m best d hmem2 hlt hv

/-- C2: resolve_conflicts replaces the local chain exactly when some candidate
is strictly longer than the local chain and passes is_chain_valid on the
scratch ledger; the boolean result is true exactly when a replacement occurred;
equal-length candidates never replace the incumbent; when no candidate is both
longer and valid, the node is returned unchanged; and on replacement the new
chain is one wholesale-assigned validated candidate whose length is maximal
among all validated candidates. -/
theorem resolve_conflicts_spec (H : BlockData → String) (sigOk : Transaction → Bool)
    (node : Node) (responses : List (Option (List BlockRepr))) :
    ((Node.resolve_conflicts H sigOk node responses).2 = true ↔
      ∃ d, some d ∈ responses ∧ node.blockchain.chain.length < d.length ∧
        scratchValidate H sigOk (d.map (Block.from_dict H)) = true) ∧
    ((Node.resolve_conflicts H sigOk node responses).2 = false →
      Node.resolve_conflicts H sigOk node responses = (node, false)) ∧
    ((Node.resolve_conflicts H sigOk node responses).2 = true →
      ∃ d, some d ∈ responses ∧ node.blockchain.chain.length < d.length ∧
        scratchValidate H sigOk (d.map (Block.from_dict H)) = true ∧
        (Node.resolve_conflicts H sigOk node responses).1 =
          { blockchain := { node.blockchain with chain := d.map (Block.from_dict H) } } ∧
        ∀ d2, some d2 ∈ responses →
          scratchValidate H sigOk (d2.map (Block.from_dict H)) = true →
          d2.length ≤ d.length) := by
  rcases resolveLoop_spec H sigOk responses node.blockchain.chain.length none with
    hid | ⟨d, hmem, hv, hlt, he⟩
  · have h2 : (resolveLoop H sigOk responses node.blockchain.chain.length none).2 = none := by
      rw [hid]
    have hres : Node.resolve_conflicts H sigOk node responses = (node, false) := by
      rw [Node.resolve_conflicts, h2]
    refine ⟨?_, fun _ => hres, ?_⟩
    · rw [hres]
      simp only [Bool.false_eq_true, false_iff]
      rintro ⟨d, hmem, hlt, hval⟩
      exact resolveLoop_reaches H sigOk responses node.blockchain.chain.length none
        d hmem hlt hval h2
    · rw [hres]
      simp
  · have h2 : (resolveLoop H sigOk responses node.blockchain.chain.length none).2 =
        some (d.map (Block.from_dict H)) := by rw [he]
    have hres : Node.resolve_conflicts H sigOk node responses =
        ({ blockchain := { node.blockchain with chain := d.map (Block.from_dict H) } },
          true) := by
      rw [Node.resolve_conflicts, h2]
    refine ⟨?_, ?_, ?_⟩
    · rw [hres]
      simp only [true_iff]
      exact ⟨d, hmem, hlt, hv⟩
    · rw [hres]
      simp
    · intro _
      refine ⟨d, hmem, hlt, hv, by rw [hres], fun d2 hmem2 hv2 => ?_⟩
      have := resolveLoop_bound H sigOk responses node.blockchain.chain.length none
        d2 hmem2 hv2
      rw [he] at this
      exact this

/-- C8: resolve_conflicts never modifies the pending pool, the difficulty or
the mining reward of the local ledger, whether or not the chain is replaced;
pooled transactions invalidated by a replaced chain are not purged. -/
theorem resolve_conflicts_preserves_pool (H : BlockData → String)
    (sigOk : Transaction → Bool) (node : Node)
    (responses : List (Option (List BlockRepr))) :
    (Node.resolve_conflicts H sigOk node responses).1.blockchain.pending_transactions =
      node.blockchain.pending_transactions ∧
    (Node.resolve_conflicts H sigOk node responses).1.blockchain.difficulty =
      node.blockchain.difficulty ∧
    (Node.resolve_conflicts H sigOk node responses).1.blockchain.mining_reward =
      node.blockchain.mining_reward := by
  rw [Node.resolve_conflicts]
  cases (resolveLoop H sigOk responses node.blockchain.chain.length none).2 <;> simp

/-! ## C7: serialisation round-trip -/

lemma tx_roundtrip (t : Transaction) :
    Transaction.from_dict (Transaction.to_dict t) = t := by
  cases t; rfl

lemma block_roundtrip (H : BlockData → String) (b : Block) :
    Block.from_dict H (Block.to_dict b) = b := by
  cases b; rfl

/-- C7: serialising a ledger and loading the representation back reproduces
the ledger exactly — same difficulty, and blocks with identical index,
transactions, timestamp, previous_hash, nonce and hash fields; the stored hash
is taken as authoritative on load and never recomputed (the equations hold for
every hash oracle H, and the loaded hash field equals the stored one); hence
is_chain_valid on the reloaded ledger returns the same boolean as on the
original. -/
theorem ledger_roundtrip (H : BlockData → String) (sigOk : Transaction → Bool)
    (bc : Blockchain) :
    Blockchain.load_from_file H (Blockchain.to_dict bc) = bc ∧
    (∀ r : BlockRepr, (Block.from_dict H r).hash = r.hash) ∧
    Blockchain.is_chain_valid H sigOk
        (Blockchain.load_from_file H (Blockchain.to_dict bc)) =
      bc.is_chain_valid H sigOk := by
  have hload : Blockchain.load_from_file H (Blockchain.to_dict bc) = bc := by
    obtain ⟨chain, d, pend, mr⟩ := bc
    simp [Blockchain.load_from_file, Blockchain.to_dict, List.map_map,
      Function.comp_def, block_roundtrip, tx_roundtrip]
  exact ⟨hload, fun r => rfl, by rw [hload]⟩

/-! ## C10: the genesis block is never validated -/

lemma chainValidFrom_hash_only (H : BlockData → String) (sigOk : Transaction → Bool)
    (d : Nat) (g g2 : Block) (rest : List Block) (hh : g.hash = g2.hash) :
    chainValidFrom H sigOk d g rest = chainValidFrom H sigOk d g2 rest := by
  cases rest with
  | nil => rfl
  | cons c tail =>
    show (blockOk H sigOk d g c && chainValidFrom H sigOk d c tail) = _
    rw [show chainValidFrom H sigOk d g2 (c :: tail) =
      (blockOk H sigOk d g2 c && chainValidFrom H sigOk d c tail) from rfl]
    congr 1
    rw [blockOk, blockOk, hh]

/-- C10: is_chain_valid never validates the genesis block itself: a chain of
length one validates regardless of the genesis block's contents — a genesis
whose cached hash mismatches the recomputation, fails the difficulty
predicate or contains invalid transactions is never detected — and the
validation verdict depends on the genesis block only through its stored hash
field, the link target of block 1. -/
theorem genesis_never_validated (H : BlockData → String) (sigOk : Transaction → Bool) :
    (∀ (d : Nat) (g : Block) (pend : List Transaction) (mr : Rat),
      Blockchain.is_chain_valid H sigOk ⟨[g], d, pend, mr⟩ = true) ∧
    (∀ (d : Nat) (g g2 : Block) (rest : List Block) (pend pend2 : List Transaction)
      (mr mr2 : Rat), g.hash = g2.hash →
      Blockchain.is_chain_valid H sigOk ⟨g :: rest, d, pend, mr⟩ =
        Blockchain.is_chain_valid H sigOk ⟨g2 :: rest, d, pend2, mr2⟩) := by
  refine ⟨fun d g pend mr => rfl, fun d g g2 rest pend pend2 mr mr2 hh => ?_⟩
  show chainValidFrom H sigOk d g rest = chainValidFrom H sigOk d g2 rest
  exact chainValidFrom_hash_only H sigOk d g g2 rest hh

end Ragecoin
